import Mathlib

/-!
TCPWebLog client: the delivery-with-failover engine.

A shallow embedding of `src/client/tcpweblog_client.c`: the frame built by
`sprintf`, `appendlog`, the cache replay loop of `main` and the body of the
forwarding loop.

C strings and the cache file are sequences of non-NUL bytes, so that the
length of such a sequence is what `strlen` returns on it.
-/

namespace TCPWebLog

/-- A byte of a C string or of a text file: a `char` value other than NUL. -/
abbrev CChar := { n : Nat // 0 < n ∧ n < 256 }

/-- The content of a `char` buffer up to its terminating NUL. -/
abbrev CStr := List CChar

/-- Size of the buffer used for a single log line: `#define BUFLEN 65536`. -/
def BUFLEN : Nat := 65536

/-- Character used to mark a processed line on the cache file: `#define LMARK 35`. -/
def LMARK : CChar := ⟨35, by decide⟩

/-- The character `@` (64) tested by the replay loop. -/
def AT : CChar := ⟨64, by decide⟩

/-- The newline character (10), at which `fgets` stops. -/
def NL : CChar := ⟨10, by decide⟩

/-- The horizontal tab (9) written by the format string. -/
def TAB : CChar := ⟨9, by decide⟩

/-- The percent sign (37) introducing a conversion in a format string. -/
def PERCENT : CChar := ⟨37, by decide⟩

/-- The minus sign (45) printed by `%d` before a negative value. -/
def MINUS : CChar := ⟨45, by decide⟩

/-- The letter `s` (115) of the `%s` conversion. -/
def LOWER_S : CChar := ⟨115, by decide⟩

/-- The letter `d` (100) of the `%d` conversion. -/
def LOWER_D : CChar := ⟨100, by decide⟩

/-- One character of a source literal as a byte, when it is a non-NUL byte. -/
def ofChar (c : Char) : Option CChar :=
  if h : 0 < c.toNat ∧ c.toNat < 256 then some ⟨c.toNat, h⟩ else none

/-- The bytes of a C string literal. -/
def ofString (s : String) : CStr := s.toList.filterMap ofChar

/-- The function `strlen`: the number of bytes before the terminating NUL. -/
def strlen (buf : CStr) : Nat := buf.length

/-- The decimal digit character of `d % 10`. -/
def digitChar (d : Nat) : CChar := ⟨48 + d % 10, by omega⟩

/-- Digits of `n`, most significant first, pushed in front of `acc`. -/
def toDigitsCore : Nat → Nat → CStr → CStr
  | 0, _, acc => acc
  | fuel + 1, n, acc =>
    if n / 10 = 0 then digitChar n :: acc
    else toDigitsCore fuel (n / 10) (digitChar n :: acc)

/-- Decimal representation of a natural number. -/
def decimalNat (n : Nat) : CStr := toDigitsCore (n + 1) n []

/-- What the `%d` conversion prints for an `int`. -/
def decimal : Int → CStr
  | Int.ofNat n => decimalNat n
  | Int.negSucc n => MINUS :: decimalNat (n + 1)

/-- An argument of `sprintf`. -/
inductive Arg where
  | str (s : CStr)
  | int (n : Int)

/-- The `sprintf` of the C library for formats made of plain characters and the
`%s` and `%d` conversions: the string it stores, without the terminating NUL. -/
def sprintf : CStr → List Arg → CStr
  | [], _ => []
  | [c], _ => [c]
  | c :: d :: fmt, args =>
    if c = PERCENT then
      match args with
      | [] => []
      | Arg.str s :: args => if d = LOWER_S then s ++ sprintf fmt args else []
      | Arg.int n :: args => if d = LOWER_D then decimal n ++ sprintf fmt args else []
    else c :: sprintf (d :: fmt) args

/-- The command line arguments that tag every record (`argv[4..7]`). -/
structure Config where
  logname : CStr
  cluster : Int
  clientip : CStr
  clienthost : CStr

/-- The format string of the framing step. -/
def FRAME_FORMAT : CStr := ofString "@@%s\t%d\t%s\t%s\t%s"

/-- The framing step of `main`:
`sprintf(buf, "@@%s\t%d\t%s\t%s\t%s", logname, cluster, clientip, clienthost, rawbuf)`. -/
def frame (cfg : Config) (rawbuf : CStr) : CStr :=
  sprintf FRAME_FORMAT
    [Arg.str cfg.logname, Arg.int cfg.cluster, Arg.str cfg.clientip,
     Arg.str cfg.clienthost, Arg.str rawbuf]

/-- A log line qualifies for replay: the test `buf[0] == 64 && (blen = strlen(buf)) > 10`
of the replay loop, 64 being the character `@`. -/
def validLine (buf : CStr) : Bool :=
  buf.head? == some AT && decide (10 < strlen buf)

/-- What one call of `fgets` stores from the unread part of a stream: at most
`k` bytes, stopping after a newline. -/
def readLine : CStr → Nat → CStr
  | [], _ => []
  | c :: cs, k =>
    if k = 0 then [] else if c = NL then [c] else c :: readLine cs (k - 1)

/-- The call `fgets(buf, size, fp)` on a file with content `data` and file position
`pos`: `none` is the NULL returned at end of file, otherwise the bytes stored
in `buf`; the file position advances by their number. -/
def fgets (size : Nat) (data : CStr) (pos : Nat) : Option CStr :=
  match data.drop pos with
  | [] => none
  | c :: cs => some (readLine (c :: cs) (size - 1))

/-- The calls `fseek(fp, pos, SEEK_SET); fputc(c, fp)` on a file with content `data`:
the byte at `pos` is overwritten, a byte written at the end extends the file. -/
def fputcAt (data : CStr) (pos : Nat) (c : CChar) : CStr :=
  if pos < data.length then data.set pos c else data ++ [c]

/-- One `sendto` call of the replay loop: the file offset the buffer was read
from, the buffer, and whether the call succeeded (did not return -1). -/
structure Attempt where
  off : Nat
  buf : CStr
  ok : Bool
  deriving DecidableEq

/-- The outcome of the replay loop: the content of the cache file, the error
flag `cerr`, whether the socket `s` is still open, the `sendto` calls made and
the offsets at which a mark was written, both in order. -/
structure DrainResult where
  data : CStr
  cerr : Bool
  s : Bool
  attempts : List Attempt
  marks : List Nat
  deriving DecidableEq

/-- The loop `while (fgets(buf, BUFLEN, fp) != NULL)` of `main`. `outs n` tells
whether the `n`-th `sendto` of the pass succeeds, `pos` is the file position of
`fp` and `cpos` the variable of that name. Each turn reads at least one byte, so
the loop is run with one unit of fuel per unread byte and one more; `none` means
that the fuel ran out. -/
def drainLoop (outs : Nat → Bool) : Nat → Bool → CStr → Nat → Nat → Nat → Option DrainResult
  | 0, _, _, _, _, _ => none
  | fuel + 1, s, data, pos, cpos, n =>
    match fgets BUFLEN data pos with
    | none => some ⟨data, false, s, [], []⟩
    | some buf =>
      if validLine buf then
        if outs n then
          let tpos := cpos
          let cpos := pos + buf.length
          let data := fputcAt data tpos LMARK
          match drainLoop outs fuel s data cpos cpos (n + 1) with
          | none => none
          | some r =>
            some { r with attempts := ⟨pos, buf, true⟩ :: r.attempts, marks := tpos :: r.marks }
        else some ⟨data, true, false, [⟨pos, buf, false⟩], []⟩
      else drainLoop outs fuel s data (pos + buf.length) cpos n

/-- The replay of an open cache file (`main`, from `cpos = ftell(fp)` to the end
of the `while` loop): the file position and `cpos` start at 0. -/
def drainCache (outs : Nat → Bool) (s : Bool) (data : CStr) : Option DrainResult :=
  drainLoop outs (data.length + 1) s data 0 0 0

/-- The state of `main` between two input lines: whether the socket is open
(`s > 0`), the content of the cache file (`none` when the file does not exist),
the buffers the remote end has accepted, in order, and how many times the replay
block (from `fopen(cachelog, "rwb+")` on) has been entered. -/
structure State where
  s : Bool
  cache : Option CStr
  wire : List CStr
  drains : Nat
  deriving DecidableEq

/-- What the environment does while one input line is processed: whether
`socket` and `connect` succeed when they are called, whether the `send` of the
line succeeds, whether the `n`-th `sendto` of the replay succeeds, and whether
the `fopen` of `appendlog` succeeds. -/
structure Env where
  connectOk : Bool
  sendOk : Bool
  replayOk : Nat → Bool
  appendOk : Bool

/-- The function `appendlog(s, file)`: `fopen(file, "a")`, `fputs`, `fclose`. A file
that cannot be opened is left as it is; a file that is opened receives the whole
string. -/
def appendlog (s : CStr) (file : Option CStr) (fopenOk : Bool) : Option CStr :=
  if fopenOk then some (file.getD [] ++ s) else file

/-- The buffers of the `sendto` calls that succeeded. -/
def delivered (attempts : List Attempt) : List CStr :=
  (attempts.filter (fun a => a.ok)).map (fun a => a.buf)

/-- The replay block of `main`: `fopen(cachelog, "rwb+")` returns NULL when the file
does not exist; a file that exists is opened for reading and writing, the loop
runs, the file is removed when `cerr == 0`, and closed. -/
def drain (outs : Nat → Bool) (st : State) : Option State :=
  match st.cache with
  | none => some st
  | some data =>
    match drainCache outs st.s data with
    | none => none
    | some r =>
      some { st with
        s := r.s
        cache := if r.cerr then some r.data else none
        wire := st.wire ++ delivered r.attempts }

/-- The body of the forwarding loop of `main` for one line `rawbuf` read by
`getline`: connect if the socket is not open, frame the line, send it, and either
replay the cache (send succeeded) or append the frame to the cache (send failed
or no socket). -/
def processRecord (cfg : Config) (st : State) (rawbuf : CStr) (env : Env) : Option State :=
  let s := if st.s then true else env.connectOk
  let buf := frame cfg rawbuf
  if s then
    if env.sendOk then
      drain env.replayOk { st with s := true, wire := st.wire ++ [buf], drains := st.drains + 1 }
    else
      some { st with s := false, cache := appendlog buf st.cache env.appendOk }
  else
    some { st with s := false, cache := appendlog buf st.cache env.appendOk }

/-- The forwarding loop of `main` over the lines read from standard input, each
with what the environment does while it is processed. -/
def run (cfg : Config) : State → List (CStr × Env) → Option State
  | st, [] => some st
  | st, (rawbuf, env) :: rest =>
    match processRecord cfg st rawbuf env with
    | none => none
    | some st1 => run cfg st1 rest

/-- The first line of a text: its bytes up to and including the first newline. -/
def firstLine : CStr → CStr
  | [] => []
  | c :: cs => if c = NL then [c] else c :: firstLine cs

/-- The lines of a text file, each with its trailing newline; the last one may
lack it. -/
def lines : CStr → List CStr
  | [] => []
  | c :: cs =>
    if c = NL then [c] :: lines cs
    else
      match lines cs with
      | [] => [[c]]
      | l :: ls => (c :: l) :: ls

/-- A list of lines sent one after the other, send number `n` first, up to and
including the first one whose send fails. -/
def cutAtFailure (outs : Nat → Bool) : Nat → List CStr → List (CStr × Bool)
  | _, [] => []
  | n, l :: ls => if outs n then (l, true) :: cutAtFailure outs (n + 1) ls else [(l, false)]

/-- A newline-terminated line: bytes without a newline, followed by one. -/
def IsLine (l : CStr) : Prop := ∃ body : CStr, NL ∉ body ∧ l = body ++ [NL]

/-- Modelled from the spec: the parser of the receiving side is not part of the
sources; the spec says parsing is by tab-splitting. The fields of a text between
tab characters. -/
def splitTab : CStr → List CStr
  | [] => [[]]
  | c :: cs =>
    if c = TAB then [] :: splitTab cs
    else
      match splitTab cs with
      | [] => [[c]]
      | f :: fs => (c :: f) :: fs

/-- Modelled from the spec: the value of a sequence of decimal digits, as the
receiving side reads the cluster field back. -/
def parseNat (ds : CStr) : Nat := ds.foldl (fun acc d => acc * 10 + (d.val - 48)) 0

/-- Modelled from the spec: the integer written as an optional minus sign and
decimal digits. -/
def parseInt : CStr → Int
  | [] => 0
  | c :: cs => if c = MINUS then - (parseNat cs : Int) else (parseNat (c :: cs) : Int)

/-- Modelled from the spec: the receiving side strips the two sentinel bytes and
splits the rest on the tab character. -/
def parseFrame (msg : CStr) : List CStr := splitTab (msg.drop 2)

/-- The transport is unavailable for a line: the socket is not open and the
connection attempt fails, or the `send` of the line fails. -/
def unavailable (s : Bool) (env : Env) : Bool :=
  (!s && !env.connectOk) || !env.sendOk

/-- The transport is unavailable for every line of a sequence. The socket may be
open before the first line; the lines after it start with a connection
attempt. -/
def allUnavailable : Bool → List (CStr × Env) → Bool
  | _, [] => true
  | s, (_, env) :: rest => unavailable s env && allUnavailable false rest

/-- The framed messages of a sequence of input lines, in order. -/
def frames (cfg : Config) (recs : List (CStr × Env)) : List CStr :=
  recs.map (fun p => frame cfg p.1)

theorem frame_eq (cfg : Config) (rawbuf : CStr) :
    frame cfg rawbuf =
      [AT, AT] ++ cfg.logname ++ [TAB] ++ decimal cfg.cluster ++ [TAB] ++ cfg.clientip
        ++ [TAB] ++ cfg.clienthost ++ [TAB] ++ rawbuf := by
  simp [frame, FRAME_FORMAT, ofString, ofChar, sprintf, PERCENT, LOWER_S, LOWER_D, AT, TAB]

/-! ### The `%d` conversion -/

theorem toDigitsCore_mem (fuel n : Nat) (acc : CStr) (c : CChar)
    (h : c ∈ toDigitsCore fuel n acc) : c ∈ acc ∨ (48 ≤ c.val ∧ c.val ≤ 57) := by
  induction fuel generalizing n acc with
  | zero => exact Or.inl h
  | succ fuel ih =>
    have hd : ∀ x : CChar, x ∈ digitChar n :: acc → x ∈ acc ∨ (48 ≤ x.val ∧ x.val ≤ 57) := by
      intro x hx
      rcases List.mem_cons.mp hx with hx | hx
      · right
        subst hx
        simp only [digitChar]
        omega
      · exact Or.inl hx
    unfold toDigitsCore at h
    split at h
    · exact hd c h
    · rcases ih _ _ h with h1 | h1
      · exact hd c h1
      · exact Or.inr h1

theorem toDigitsCore_length_pos (fuel n : Nat) (acc : CStr) :
    0 < (toDigitsCore (fuel + 1) n acc).length := by
  induction fuel generalizing n acc with
  | zero =>
    unfold toDigitsCore
    split
    · simp
    · simp [toDigitsCore]
  | succ fuel ih =>
    unfold toDigitsCore
    split
    · simp
    · exact ih _ _

theorem toDigitsCore_length_le (fuel n k : Nat) (acc : CStr) (hn : n < 10 ^ (k + 1))
    (hf : n < fuel) : (toDigitsCore fuel n acc).length ≤ k + 1 + acc.length := by
  induction fuel generalizing n k acc with
  | zero => omega
  | succ fuel ih =>
    unfold toDigitsCore
    split
    · simp
      omega
    · rename_i hne
      cases k with
      | zero =>
        exfalso
        apply hne
        simp at hn
        omega
      | succ k =>
        have h1 : n / 10 < 10 ^ (k + 1) := by
          rw [Nat.div_lt_iff_lt_mul (by decide)]
          simpa [pow_succ] using hn
        have h2 : n / 10 < fuel := by omega
        have := ih (n / 10) k (digitChar n :: acc) h1 h2
        simp at this
        omega

theorem parseNat_toDigitsCore (fuel n : Nat) (acc : CStr) (hf : n < fuel) :
    List.foldl (fun a (d : CChar) => a * 10 + (d.val - 48)) 0 (toDigitsCore fuel n acc) =
      List.foldl (fun a (d : CChar) => a * 10 + (d.val - 48)) n acc := by
  induction fuel generalizing n acc with
  | zero => omega
  | succ fuel ih =>
    unfold toDigitsCore
    split
    · rename_i h0
      have hn : 48 + n % 10 - 48 = n := by omega
      simp [digitChar, hn]
    · have h2 : n / 10 < fuel := by omega
      rw [ih (n / 10) _ h2]
      have hn : n / 10 * 10 + (48 + n % 10 - 48) = n := by omega
      simp only [digitChar, List.foldl_cons, hn]

theorem parseNat_decimalNat (n : Nat) : parseNat (decimalNat n) = n := by
  simp [parseNat, decimalNat, parseNat_toDigitsCore (n + 1) n [] (Nat.lt_succ_self n)]

theorem decimalNat_mem (n : Nat) (c : CChar) (h : c ∈ decimalNat n) :
    48 ≤ c.val ∧ c.val ≤ 57 := by
  rcases toDigitsCore_mem _ _ _ _ h with h1 | h1
  · simp at h1
  · exact h1

theorem decimalNat_length_pos (n : Nat) : 0 < (decimalNat n).length :=
  toDigitsCore_length_pos n n []

theorem decimal_length_pos (c : Int) : 0 < (decimal c).length := by
  cases c with
  | ofNat n => exact decimalNat_length_pos n
  | negSucc n => simp [decimal]

theorem decimal_mem (c : Int) (x : CChar) (h : x ∈ decimal c) :
    x = MINUS ∨ (48 ≤ x.val ∧ x.val ≤ 57) := by
  cases c with
  | ofNat n => exact Or.inr (decimalNat_mem n x h)
  | negSucc n =>
    simp only [decimal, List.mem_cons] at h
    rcases h with h | h
    · exact Or.inl h
    · exact Or.inr (decimalNat_mem _ x h)

theorem tab_not_mem_decimal (c : Int) : TAB ∉ decimal c := by
  intro h
  rcases decimal_mem c TAB h with h1 | h1
  · exact absurd h1 (by decide)
  · simp [TAB] at h1

theorem parseInt_decimal (c : Int) : parseInt (decimal c) = c := by
  cases c with
  | ofNat n =>
    simp only [decimal]
    have hpos := decimalNat_length_pos n
    have hval := parseNat_decimalNat n
    cases hd : decimalNat n with
    | nil => simp [hd] at hpos
    | cons x xs =>
      have hx := decimalNat_mem n x (by simp [hd])
      have hne : x ≠ MINUS := by
        intro h
        rw [h] at hx
        simp [MINUS] at hx
      rw [hd] at hval
      simp [parseInt, hne, hval]
  | negSucc n =>
    simp only [decimal, parseInt, if_true, parseNat_decimalNat]
    rfl

theorem decimal_length_le (c : Int) (hlo : -2147483648 ≤ c) (hhi : c < 2147483648) :
    (decimal c).length ≤ 11 := by
  cases c with
  | ofNat n =>
    have hn : n < 10 ^ (9 + 1) := by
      have : (n : Int) < 2147483648 := hhi
      norm_num
      omega
    have := toDigitsCore_length_le (n + 1) n 9 [] hn (Nat.lt_succ_self n)
    simp only [decimal, decimalNat]
    simp at this
    omega
  | negSucc n =>
    have hn : n + 1 < 10 ^ (9 + 1) := by
      have : -2147483648 ≤ Int.negSucc n := hlo
      rw [Int.negSucc_eq] at this
      norm_num
      omega
    have := toDigitsCore_length_le (n + 1 + 1) (n + 1) 9 [] hn (Nat.lt_succ_self _)
    simp only [decimal, decimalNat, List.length_cons]
    simp at this
    omega

/-! ### The frame -/

theorem frame_length (cfg : Config) (rawbuf : CStr) :
    (frame cfg rawbuf).length =
      6 + cfg.logname.length + (decimal cfg.cluster).length + cfg.clientip.length
        + cfg.clienthost.length + rawbuf.length := by
  rw [frame_eq]
  simp only [List.length_append, List.length_cons, List.length_nil]
  omega

theorem splitTab_ne_nil (l : CStr) : splitTab l ≠ [] := by
  cases l with
  | nil => simp [splitTab]
  | cons c cs =>
    unfold splitTab
    split
    · simp
    · split <;> simp

theorem splitTab_of_not_mem (a : CStr) (h : TAB ∉ a) : splitTab a = [a] := by
  induction a with
  | nil => rfl
  | cons c cs ih =>
    have hc : c ≠ TAB := fun e => h (by simp [e])
    have hcs : TAB ∉ cs := fun e => h (List.mem_cons_of_mem _ e)
    simp [splitTab, hc, ih hcs]

theorem splitTab_append_tab (a rest : CStr) (h : TAB ∉ a) :
    splitTab (a ++ TAB :: rest) = a :: splitTab rest := by
  induction a with
  | nil => simp [splitTab]
  | cons c cs ih =>
    have hc : c ≠ TAB := fun e => h (by simp [e])
    have hcs : TAB ∉ cs := fun e => h (List.mem_cons_of_mem _ e)
    simp [splitTab, hc, ih hcs]

/-- C5: for every stream-name S, cluster-id C, source-ip I, source-host H and
payload P the framed message is exactly "@@" S TAB decimal(C) TAB I TAB H TAB P;
it begins with the sentinel "@@" and, when the payload ends with a newline, ends
with that newline; the record (access.log, 1, 10.0.2.15, xhost,
"GET / HTTP/1.1 200\n") gives "@@access.log\t1\t10.0.2.15\txhost\tGET / HTTP/1.1 200\n". -/
theorem frame_construction (S I H P : CStr) (C : Int) :
    frame ⟨S, C, I, H⟩ P =
        ofString "@@" ++ S ++ [TAB] ++ decimal C ++ [TAB] ++ I ++ [TAB] ++ H ++ [TAB] ++ P
      ∧ (frame ⟨S, C, I, H⟩ P).take 2 = ofString "@@"
      ∧ (frame ⟨S, C, I, H⟩ (P ++ [NL])).getLast? = some NL
      ∧ decimal 1 = ofString "1"
      ∧ frame ⟨ofString "access.log", 1, ofString "10.0.2.15", ofString "xhost"⟩
            (ofString "GET / HTTP/1.1 200\n")
          = ofString "@@access.log\t1\t10.0.2.15\txhost\tGET / HTTP/1.1 200\n" := by
  refine ⟨?_, ?_, ?_, by decide, by decide⟩
  · rw [frame_eq]
    rfl
  · rw [frame_eq]
    rfl
  · rw [frame_eq, ← List.append_assoc]
    exact List.getLast?_concat _

/-- C6 as stated fails: a payload that contains a tab is split into two fields,
so the framed message of (a, 1, b, c, "GET /\t200\n") parses into six fields,
not into the five of the record. -/
theorem framing_round_trip_fails_on_tab :
    parseFrame (frame ⟨ofString "a", 1, ofString "b", ofString "c"⟩ (ofString "GET /\t200\n"))
      ≠ [ofString "a", decimal 1, ofString "b", ofString "c", ofString "GET /\t200\n"] := by
  decide

/-- C6, amended: for any record whose stream-name S, client IP I, client host H
and payload P contain no tab character, stripping the "@@" sentinel from the
framed message and splitting on the tab character gives exactly the five fields
S, decimal(C), I, H, P, and reading the cluster field as a decimal integer gives
C back. -/
theorem framing_round_trip (S I H P : CStr) (C : Int)
    (hS : TAB ∉ S) (hI : TAB ∉ I) (hH : TAB ∉ H) (hP : TAB ∉ P) :
    parseFrame (frame ⟨S, C, I, H⟩ P) = [S, decimal C, I, H, P]
      ∧ parseInt (decimal C) = C := by
  refine ⟨?_, parseInt_decimal C⟩
  rw [frame_eq]
  simp only [parseFrame, List.append_assoc, List.cons_append, List.nil_append, List.drop_succ_cons,
    List.drop_zero]
  rw [splitTab_append_tab _ _ hS, splitTab_append_tab _ _ (tab_not_mem_decimal C),
    splitTab_append_tab _ _ hI, splitTab_append_tab _ _ hH, splitTab_of_not_mem _ hP]

theorem framing_round_trip_witness :
    parseFrame (frame ⟨ofString "access.log", 1, ofString "10.0.2.15", ofString "xhost"⟩
        (ofString "GET / HTTP/1.1 200\n"))
      = [ofString "access.log", decimal 1, ofString "10.0.2.15", ofString "xhost",
          ofString "GET / HTTP/1.1 200\n"]
      ∧ parseInt (decimal 1) = 1 :=
  framing_round_trip (ofString "access.log") (ofString "10.0.2.15") (ofString "xhost")
    (ofString "GET / HTTP/1.1 200\n") 1 (by decide) (by decide) (by decide) (by decide)

/-- C7 as stated fails: the framing step does not truncate; for a payload of
65536 bytes the framed message is longer than the buffer of 65536 bytes. -/
theorem frame_exceeds_buffer :
    BUFLEN < (frame ⟨ofString "access.log", 1, ofString "10.0.2.15", ofString "xhost"⟩
      (List.replicate 65535 AT ++ [NL])).length := by
  have hlen : ∀ n : Nat, (List.replicate n AT ++ [NL]).length = n + 1 := by
    intro n
    simp
  have h := frame_length ⟨ofString "access.log", 1, ofString "10.0.2.15", ofString "xhost"⟩
    (List.replicate 65535 AT ++ [NL])
  rw [hlen 65535] at h
  rw [h, BUFLEN]
  omega

/-- C7, amended: for every record whose payload is at most 65000 bytes (the
maximum input line length the source documents), whose cluster-id is a 32-bit
`int` and whose stream-name, source-ip and source-host have at most 518 bytes
together, the framed message and its terminating NUL fit the buffer of 65536
bytes, and the frame holds the five fields in full: nothing is truncated. -/
theorem frame_fits_buffer (S I H P : CStr) (C : Int)
    (hlo : -2147483648 ≤ C) (hhi : C < 2147483648) (hP : P.length ≤ 65000)
    (hM : S.length + I.length + H.length ≤ 518) :
    strlen (frame ⟨S, C, I, H⟩ P) + 1 ≤ BUFLEN
      ∧ frame ⟨S, C, I, H⟩ P =
          [AT, AT] ++ S ++ [TAB] ++ decimal C ++ [TAB] ++ I ++ [TAB] ++ H ++ [TAB] ++ P := by
  refine ⟨?_, frame_eq _ _⟩
  have hd := decimal_length_le C hlo hhi
  simp only [strlen, frame_length, BUFLEN]
  omega

theorem frame_fits_buffer_witness :
    strlen (frame ⟨ofString "access.log", 1, ofString "10.0.2.15", ofString "xhost"⟩
        (ofString "GET / HTTP/1.1 200\n")) + 1 ≤ BUFLEN
      ∧ frame ⟨ofString "access.log", 1, ofString "10.0.2.15", ofString "xhost"⟩
          (ofString "GET / HTTP/1.1 200\n") =
          [AT, AT] ++ ofString "access.log" ++ [TAB] ++ decimal 1 ++ [TAB] ++ ofString "10.0.2.15"
            ++ [TAB] ++ ofString "xhost" ++ [TAB] ++ ofString "GET / HTTP/1.1 200\n" :=
  frame_fits_buffer (ofString "access.log") (ofString "10.0.2.15") (ofString "xhost")
    (ofString "GET / HTTP/1.1 200\n") 1 (by decide) (by decide) (by decide) (by decide)

/-- C10: for every record whose stream-name, source-ip, source-host and payload
are all non-empty, with any cluster-id, the framed message has first byte `@`
and more than 10 bytes, so it passes the test by which the replay loop selects
the lines it sends. -/
theorem cached_frame_replayable (S I H P : CStr) (C : Int)
    (hS : S ≠ []) (hI : I ≠ []) (hH : H ≠ []) (hP : P ≠ []) :
    (frame ⟨S, C, I, H⟩ P).head? = some AT
      ∧ 10 < strlen (frame ⟨S, C, I, H⟩ P)
      ∧ validLine (frame ⟨S, C, I, H⟩ P) = true := by
  have h1 : (frame ⟨S, C, I, H⟩ P).head? = some AT := by
    rw [frame_eq]
    rfl
  have h2 : 10 < strlen (frame ⟨S, C, I, H⟩ P) := by
    have hd := decimal_length_pos C
    have := List.length_pos.mpr hS
    have := List.length_pos.mpr hI
    have := List.length_pos.mpr hH
    have := List.length_pos.mpr hP
    simp only [strlen, frame_length]
    omega
  exact ⟨h1, h2, by simp [validLine, h1, h2]⟩

theorem cached_frame_replayable_witness :
    (frame ⟨ofString "access.log", 1, ofString "-", ofString "-"⟩ (ofString "\n")).head? = some AT
      ∧ 10 < strlen (frame ⟨ofString "access.log", 1, ofString "-", ofString "-"⟩ (ofString "\n"))
      ∧ validLine (frame ⟨ofString "access.log", 1, ofString "-", ofString "-"⟩ (ofString "\n"))
          = true :=
  cached_frame_replayable (ofString "access.log") (ofString "-") (ofString "-") (ofString "\n") 1
    (by decide) (by decide) (by decide) (by decide)

/-! ### Reading and marking the cache file -/

theorem readLine_cons_ne_nil (c : CChar) (cs : CStr) (k : Nat) (hk : k ≠ 0) :
    ∃ rest, readLine (c :: cs) k = c :: rest := by
  unfold readLine
  by_cases hc : c = NL
  · exact ⟨[], by simp [hk, hc]⟩
  · exact ⟨readLine cs (k - 1), by simp [hk, hc]⟩

theorem readLine_eq_firstLine (l : CStr) (k : Nat) (h : (firstLine l).length ≤ k) :
    readLine l k = firstLine l := by
  induction l generalizing k with
  | nil => rfl
  | cons c cs ih =>
    unfold readLine
    unfold firstLine at h ⊢
    by_cases hc : c = NL
    · simp only [hc, if_true, List.length_cons, List.length_nil] at h ⊢
      have hk : k ≠ 0 := by omega
      simp [hk]
    · simp only [hc, if_false, List.length_cons] at h ⊢
      have hk : k ≠ 0 := by omega
      simp only [hk, if_false]
      rw [ih (k - 1) (by omega)]

theorem lines_cons_eq (c : CChar) (cs : CStr) :
    lines (c :: cs) =
      firstLine (c :: cs) :: lines ((c :: cs).drop (firstLine (c :: cs)).length) := by
  induction cs generalizing c with
  | nil =>
    by_cases hc : c = NL <;> simp [lines, firstLine, hc]
  | cons d ds ih =>
    by_cases hc : c = NL
    · simp [lines, firstLine, hc]
    · have h := ih d
      have e2 : firstLine (c :: d :: ds) = c :: firstLine (d :: ds) := by
        rw [firstLine, if_neg hc]
      have e1 : lines (c :: d :: ds) =
          (c :: firstLine (d :: ds)) :: lines ((d :: ds).drop (firstLine (d :: ds)).length) := by
        conv_lhs => rw [lines]
        rw [if_neg hc, h]
      rw [e1, e2]
      simp

theorem getElem?_fputcAt (data : CStr) (p q : Nat) (c : CChar) :
    (fputcAt data p c)[q]? = some c ∨ (fputcAt data p c)[q]? = data[q]? := by
  unfold fputcAt
  split
  · rename_i hp
    by_cases hq : p = q
    · left
      subst hq
      simp [hp]
    · right
      simp [List.getElem?_set, hq]
  · rename_i hp
    by_cases hq : q < data.length
    · right
      simp [List.getElem?_append_left, hq]
    · by_cases hq2 : q = data.length
      · left
        subst hq2
        simp
      · right
        have h1 : data.length ≤ q := by omega
        rw [List.getElem?_eq_none (by simp; omega), List.getElem?_eq_none h1]

theorem getElem?_fputcAt_self (data : CStr) (p : Nat) (c : CChar) (hp : p ≤ data.length) :
    (fputcAt data p c)[p]? = some c := by
  unfold fputcAt
  split
  · rename_i h
    simp [h]
  · have : p = data.length := by omega
    subst this
    simp

theorem length_fputcAt (data : CStr) (p : Nat) (c : CChar) (hp : p < data.length) :
    (fputcAt data p c).length = data.length := by
  simp [fputcAt, hp]

theorem drop_fputcAt (data : CStr) (p q : Nat) (c : CChar) (hp : p < data.length) (hq : p < q) :
    (fputcAt data p c).drop q = data.drop q := by
  simp only [fputcAt, hp, if_true]
  rw [List.drop_set]
  simp [hq]

/-! ### One turn of the replay loop -/

theorem drainLoop_succ (outs : Nat → Bool) (fuel : Nat) (s : Bool) (data : CStr)
    (pos cpos n : Nat) (r : DrainResult)
    (h : drainLoop outs (fuel + 1) s data pos cpos n = some r) :
    (data.drop pos = [] ∧ r = ⟨data, false, s, [], []⟩) ∨
    ∃ c rest tl, data.drop pos = c :: tl ∧ readLine (c :: tl) (BUFLEN - 1) = c :: rest ∧
      ((validLine (c :: rest) = false ∧
          drainLoop outs fuel s data (pos + (c :: rest).length) cpos n = some r) ∨
       (validLine (c :: rest) = true ∧ outs n = false ∧
          r = ⟨data, true, false, [⟨pos, c :: rest, false⟩], []⟩) ∨
       (validLine (c :: rest) = true ∧ outs n = true ∧
          ∃ r1, drainLoop outs fuel s (fputcAt data cpos LMARK) (pos + (c :: rest).length)
              (pos + (c :: rest).length) (n + 1) = some r1 ∧
            r = { r1 with attempts := ⟨pos, c :: rest, true⟩ :: r1.attempts,
                          marks := cpos :: r1.marks })) := by
  unfold drainLoop at h
  cases hd : data.drop pos with
  | nil =>
    left
    simp only [fgets, hd] at h
    exact ⟨rfl, (Option.some.inj h).symm⟩
  | cons c tl =>
    right
    obtain ⟨rest, hrest⟩ := readLine_cons_ne_nil c tl (BUFLEN - 1) (by decide)
    refine ⟨c, rest, tl, rfl, hrest, ?_⟩
    simp only [fgets, hd, hrest] at h
    by_cases hv : validLine (c :: rest) = true
    · rw [if_pos hv] at h
      by_cases ho : outs n = true
      · rw [if_pos ho] at h
        right; right
        refine ⟨hv, ho, ?_⟩
        cases hr : drainLoop outs fuel s (fputcAt data cpos LMARK) (pos + (c :: rest).length)
            (pos + (c :: rest).length) (n + 1) with
        | none =>
          rw [hr] at h
          exact absurd h (by simp)
        | some r1 =>
          rw [hr] at h
          exact ⟨r1, rfl, (Option.some.inj h).symm⟩
      · rw [if_neg ho] at h
        right; left
        exact ⟨hv, by simpa using ho, (Option.some.inj h).symm⟩
    · rw [if_neg hv] at h
      left
      exact ⟨by simpa using hv, h⟩

theorem lt_length_of_drop_eq_cons (data : CStr) (pos : Nat) (c : CChar) (tl : CStr)
    (h : data.drop pos = c :: tl) : pos < data.length := by
  by_contra hlt
  rw [List.drop_eq_nil_of_le (by omega)] at h
  exact absurd h (by simp)

theorem getElem?_of_drop_eq_cons (data : CStr) (pos : Nat) (c : CChar) (tl : CStr)
    (h : data.drop pos = c :: tl) : data[pos]? = some c := by
  have h1 : (data.drop pos)[0]? = some c := by rw [h]; simp
  rw [List.getElem?_drop] at h1
  simpa using h1

theorem validLine_head (c : CChar) (rest : CStr) (h : validLine (c :: rest) = true) : c = AT := by
  simp [validLine] at h
  exact h.1

theorem drainLoop_total (outs : Nat → Bool) (fuel : Nat) (s : Bool) (data : CStr)
    (pos cpos n : Nat) (hc : cpos ≤ pos) (hf : data.length - pos < fuel) :
    ∃ r, drainLoop outs fuel s data pos cpos n = some r := by
  induction fuel generalizing data pos cpos n with
  | zero => omega
  | succ fuel ih =>
    unfold drainLoop
    cases hd : data.drop pos with
    | nil =>
      simp only [fgets, hd]
      exact ⟨_, rfl⟩
    | cons c tl =>
      have hpos := lt_length_of_drop_eq_cons data pos c tl hd
      obtain ⟨rest, hrest⟩ := readLine_cons_ne_nil c tl (BUFLEN - 1) (by decide)
      simp only [fgets, hd, hrest]
      by_cases hv : validLine (c :: rest) = true
      · rw [if_pos hv]
        by_cases ho : outs n = true
        · rw [if_pos ho]
          have hlen := length_fputcAt data cpos LMARK (by omega)
          obtain ⟨r1, hr1⟩ := ih (fputcAt data cpos LMARK) (pos + (c :: rest).length)
            (pos + (c :: rest).length) (n + 1) (le_refl _)
            (by rw [hlen]; simp only [List.length_cons]; omega)
          rw [hr1]
          exact ⟨_, rfl⟩
        · rw [if_neg ho]
          exact ⟨_, rfl⟩
      · rw [if_neg hv]
        exact ih data (pos + (c :: rest).length) cpos n (by omega)
          (by simp only [List.length_cons]; omega)

theorem drainLoop_data (outs : Nat → Bool) (fuel : Nat) (s : Bool) (data : CStr)
    (pos cpos n : Nat) (r : DrainResult) (hc : cpos ≤ pos)
    (h : drainLoop outs fuel s data pos cpos n = some r) :
    r.data.length = data.length ∧
      ∀ q : Nat, r.data[q]? = some LMARK ∨ r.data[q]? = data[q]? := by
  induction fuel generalizing data pos cpos n r with
  | zero => simp [drainLoop] at h
  | succ fuel ih =>
    rcases drainLoop_succ outs fuel s data pos cpos n r h with ⟨_, hr⟩ | ⟨c, rest, tl, hd, _, hcase⟩
    · subst hr
      exact ⟨rfl, fun _ => Or.inr rfl⟩
    · have hpos := lt_length_of_drop_eq_cons data pos c tl hd
      rcases hcase with ⟨_, hrec⟩ | ⟨_, _, hr⟩ | ⟨_, _, r1, hrec, hr⟩
      · exact ih data _ cpos n r (by omega) hrec
      · subst hr
        exact ⟨rfl, fun _ => Or.inr rfl⟩
      · obtain ⟨h1, h2⟩ := ih _ _ _ _ r1 (le_refl _) hrec
        subst hr
        refine ⟨by rw [h1]; exact length_fputcAt data cpos LMARK (by omega), fun q => ?_⟩
        rcases h2 q with h3 | h3
        · exact Or.inl h3
        · rcases getElem?_fputcAt data cpos q LMARK with h4 | h4
          · exact Or.inl (h3.trans h4)
          · exact Or.inr (h3.trans h4)

theorem drainLoop_marks (outs : Nat → Bool) (fuel : Nat) (s : Bool) (data : CStr)
    (pos cpos n : Nat) (r : DrainResult) (hc : cpos ≤ pos)
    (h : drainLoop outs fuel s data pos cpos n = some r) :
    ∀ p ∈ r.marks, r.data[p]? = some LMARK := by
  induction fuel generalizing data pos cpos n r with
  | zero => simp [drainLoop] at h
  | succ fuel ih =>
    rcases drainLoop_succ outs fuel s data pos cpos n r h with ⟨_, hr⟩ | ⟨c, rest, tl, hd, _, hcase⟩
    · subst hr
      simp
    · have hpos := lt_length_of_drop_eq_cons data pos c tl hd
      rcases hcase with ⟨_, hrec⟩ | ⟨_, _, hr⟩ | ⟨_, _, r1, hrec, hr⟩
      · exact ih data _ cpos n r (by omega) hrec
      · subst hr
        simp
      · have hmarks := ih _ _ _ _ r1 (le_refl _) hrec
        obtain ⟨_, hdata⟩ := drainLoop_data outs fuel s _ _ _ _ r1 (le_refl _) hrec
        subst hr
        intro p hp
        rcases List.mem_cons.mp hp with hp | hp
        · subst hp
          rcases hdata p with h3 | h3
          · exact h3
          · exact h3.trans (getElem?_fputcAt_self data p LMARK (by omega))
        · exact hmarks p hp

theorem drainLoop_offsets (outs : Nat → Bool) (fuel : Nat) (s : Bool) (data : CStr)
    (pos cpos n : Nat) (r : DrainResult)
    (h : drainLoop outs fuel s data pos cpos n = some r) :
    ∀ a ∈ r.attempts, data[a.off]? = some AT := by
  induction fuel generalizing data pos cpos n r with
  | zero => simp [drainLoop] at h
  | succ fuel ih =>
    rcases drainLoop_succ outs fuel s data pos cpos n r h with ⟨_, hr⟩ | ⟨c, rest, tl, hd, _, hcase⟩
    · subst hr
      simp
    · have hget := getElem?_of_drop_eq_cons data pos c tl hd
      rcases hcase with ⟨_, hrec⟩ | ⟨hv, _, hr⟩ | ⟨hv, _, r1, hrec, hr⟩
      · exact ih data _ cpos n r hrec
      · subst hr
        intro a ha
        simp only [List.mem_singleton] at ha
        subst ha
        rw [← validLine_head c rest hv]
        exact hget
      · have hrest := ih _ _ _ _ r1 hrec
        subst hr
        intro a ha
        rcases List.mem_cons.mp ha with ha | ha
        · subst ha
          rw [← validLine_head c rest hv]
          exact hget
        · have h1 := hrest a ha
          rcases getElem?_fputcAt data cpos a.off LMARK with h4 | h4
          · rw [h4] at h1
            exact absurd (Option.some.inj h1) (by decide)
          · exact h4 ▸ h1

theorem drainLoop_cerr (outs : Nat → Bool) (fuel : Nat) (s : Bool) (data : CStr)
    (pos cpos n : Nat) (r : DrainResult)
    (h : drainLoop outs fuel s data pos cpos n = some r) :
    ((∀ a ∈ r.attempts, a.ok = true) → r.cerr = false ∧ r.s = s) ∧
      ((∃ a ∈ r.attempts, a.ok = false) → r.cerr = true ∧ r.s = false) := by
  induction fuel generalizing data pos cpos n r with
  | zero => simp [drainLoop] at h
  | succ fuel ih =>
    rcases drainLoop_succ outs fuel s data pos cpos n r h with ⟨_, hr⟩ | ⟨c, rest, tl, hd, _, hcase⟩
    · subst hr
      simp
    · rcases hcase with ⟨_, hrec⟩ | ⟨hv, _, hr⟩ | ⟨hv, _, r1, hrec, hr⟩
      · exact ih data _ cpos n r hrec
      · subst hr
        simp
      · have hrest := ih _ _ _ _ r1 hrec
        subst hr
        simpa using hrest

theorem lines_drop_eq (data : CStr) (pos : Nat) (c : CChar) (tl rest : CStr)
    (hd : data.drop pos = c :: tl) (hrl : readLine (c :: tl) (BUFLEN - 1) = c :: rest)
    (hb : ∀ l ∈ lines (data.drop pos), l.length ≤ BUFLEN - 1) :
    lines (data.drop pos) = (c :: rest) :: lines (data.drop (pos + (c :: rest).length)) := by
  have hl := lines_cons_eq c tl
  have hfl : firstLine (c :: tl) = c :: rest := by
    rw [← hrl]
    refine (readLine_eq_firstLine _ _ (hb _ ?_)).symm
    rw [hd, hl]
    exact List.mem_cons_self _ _
  rw [hfl, ← hd, List.drop_drop] at hl
  rw [hl, Nat.add_comm]

theorem drainLoop_attempts (outs : Nat → Bool) (fuel : Nat) (s : Bool) (data : CStr)
    (pos cpos n : Nat) (r : DrainResult) (hc : cpos ≤ pos)
    (hb : ∀ l ∈ lines (data.drop pos), l.length ≤ BUFLEN - 1)
    (h : drainLoop outs fuel s data pos cpos n = some r) :
    r.attempts.map (fun a => (a.buf, a.ok)) =
      cutAtFailure outs n ((lines (data.drop pos)).filter validLine) := by
  induction fuel generalizing data pos cpos n r with
  | zero => simp [drainLoop] at h
  | succ fuel ih =>
    rcases drainLoop_succ outs fuel s data pos cpos n r h with ⟨hd, hr⟩ | ⟨c, rest, tl, hd, hrl, hcase⟩
    · subst hr
      simp [hd, lines, cutAtFailure]
    · have hpos := lt_length_of_drop_eq_cons data pos c tl hd
      have hl := lines_drop_eq data pos c tl rest hd hrl hb
      have hb1 : ∀ l ∈ lines (data.drop (pos + (c :: rest).length)), l.length ≤ BUFLEN - 1 := by
        intro l hmem
        apply hb
        rw [hl]
        exact List.mem_cons_of_mem _ hmem
      rcases hcase with ⟨hv, hrec⟩ | ⟨hv, ho, hr⟩ | ⟨hv, ho, r1, hrec, hr⟩
      · rw [hl, List.filter_cons_of_neg (by simp [hv])]
        exact ih data _ cpos n r (by omega) hb1 hrec
      · subst hr
        rw [hl, List.filter_cons_of_pos hv]
        simp [cutAtFailure, ho]
      · have hdrop : (fputcAt data cpos LMARK).drop (pos + (c :: rest).length) =
            data.drop (pos + (c :: rest).length) :=
          drop_fputcAt data cpos _ LMARK (by omega) (by simp only [List.length_cons]; omega)
        have hrest := ih _ _ _ _ r1 (le_refl _) (by rw [hdrop]; exact hb1) hrec
        subst hr
        rw [hl, List.filter_cons_of_pos hv]
        rw [hdrop] at hrest
        simp [cutAtFailure, ho, hrest]

theorem validLine_eq (l : CStr) :
    validLine l = decide (l.head? = some AT ∧ 10 < l.length) := by
  by_cases h : l.head? = some AT <;> simp [validLine, strlen, h]

theorem fgets_of_drop_eq_cons (data : CStr) (pos : Nat) (c : CChar) (tl rest : CStr)
    (hd : data.drop pos = c :: tl) (hrl : readLine (c :: tl) (BUFLEN - 1) = c :: rest) :
    fgets BUFLEN data pos = some (c :: rest) := by
  simp only [fgets, hd, hrl]

theorem drainLoop_reads (outs : Nat → Bool) (fuel : Nat) (s : Bool) (data : CStr)
    (pos cpos n : Nat) (r : DrainResult) (hc : cpos ≤ pos)
    (h : drainLoop outs fuel s data pos cpos n = some r) :
    ∀ a ∈ r.attempts, pos ≤ a.off ∧ fgets BUFLEN data a.off = some a.buf ∧
      validLine a.buf = true := by
  induction fuel generalizing data pos cpos n r with
  | zero => simp [drainLoop] at h
  | succ fuel ih =>
    rcases drainLoop_succ outs fuel s data pos cpos n r h with ⟨_, hr⟩ | ⟨c, rest, tl, hd, hrl, hcase⟩
    · subst hr
      simp
    · have hpos := lt_length_of_drop_eq_cons data pos c tl hd
      have hfg := fgets_of_drop_eq_cons data pos c tl rest hd hrl
      rcases hcase with ⟨_, hrec⟩ | ⟨hv, _, hr⟩ | ⟨hv, _, r1, hrec, hr⟩
      · intro a ha
        obtain ⟨h1, h2⟩ := ih data _ cpos n r (by omega) hrec a ha
        exact ⟨by omega, h2⟩
      · subst hr
        intro a ha
        simp only [List.mem_singleton] at ha
        subst ha
        exact ⟨le_refl _, hfg, hv⟩
      · have hrest := ih _ _ _ _ r1 (le_refl _) hrec
        subst hr
        intro a ha
        rcases List.mem_cons.mp ha with ha | ha
        · subst ha
          exact ⟨le_refl _, hfg, hv⟩
        · obtain ⟨h1, h2, h3⟩ := hrest a ha
          simp only [List.length_cons] at h1
          refine ⟨by omega, ?_, h3⟩
          rw [← h2]
          simp only [fgets]
          rw [drop_fputcAt data cpos a.off LMARK (by omega) (by omega)]

theorem drainLoop_ok (outs : Nat → Bool) (fuel : Nat) (s : Bool) (data : CStr)
    (pos cpos n : Nat) (r : DrainResult)
    (h : drainLoop outs fuel s data pos cpos n = some r) :
    ∀ a ∈ r.attempts, ∃ i, a.ok = outs i := by
  induction fuel generalizing data pos cpos n r with
  | zero => simp [drainLoop] at h
  | succ fuel ih =>
    rcases drainLoop_succ outs fuel s data pos cpos n r h with ⟨_, hr⟩ | ⟨c, rest, tl, hd, _, hcase⟩
    · subst hr
      simp
    · rcases hcase with ⟨_, hrec⟩ | ⟨_, ho, hr⟩ | ⟨_, ho, r1, hrec, hr⟩
      · exact ih data _ cpos n r hrec
      · subst hr
        intro a ha
        simp only [List.mem_singleton] at ha
        subst ha
        exact ⟨n, ho.symm⟩
      · have hrest := ih _ _ _ _ r1 hrec
        subst hr
        intro a ha
        rcases List.mem_cons.mp ha with ha | ha
        · subst ha
          exact ⟨n, ho.symm⟩
        · exact hrest a ha

theorem drainCache_total (outs : Nat → Bool) (s : Bool) (data : CStr) :
    ∃ r, drainCache outs s data = some r :=
  drainLoop_total outs _ s data 0 0 0 (le_refl _) (by omega)

/-! ### The replay pass -/

/-- C8: for every cache content whose lines have at most 65535 bytes and every
sequence of send outcomes, the replay loop ends, and the buffers it passes to
`sendto` are exactly the lines whose first byte is `@` and whose length is
greater than 10, in file order, up to and including the first one whose send
fails; when a send fails the error flag is set and the socket is closed, and
when none fails the socket is as before. -/
theorem replay_selection (store : CStr) (outs : Nat → Bool) (s : Bool)
    (hb : ∀ l ∈ lines store, l.length ≤ 65535) :
    ∃ r, drainCache outs s store = some r
      ∧ r.attempts.map (fun a => (a.buf, a.ok)) =
          cutAtFailure outs 0
            ((lines store).filter (fun l => decide (l.head? = some AT ∧ 10 < l.length)))
      ∧ ((∃ a ∈ r.attempts, a.ok = false) → r.cerr = true ∧ r.s = false)
      ∧ ((∀ a ∈ r.attempts, a.ok = true) → r.cerr = false ∧ r.s = s) := by
  obtain ⟨r, hr⟩ := drainCache_total outs s store
  refine ⟨r, hr, ?_, (drainLoop_cerr outs _ s store 0 0 0 r hr).2,
    (drainLoop_cerr outs _ s store 0 0 0 r hr).1⟩
  have h := drainLoop_attempts outs _ s store 0 0 0 r (le_refl _) (by simpa [BUFLEN] using hb) hr
  have hf : (fun l : CStr => decide (l.head? = some AT ∧ 10 < l.length)) = validLine :=
    funext fun l => (validLine_eq l).symm
  rw [hf]
  simpa using h

theorem replay_selection_witness :
    ∃ r, drainCache (fun n => n == 0) true
          (ofString "#@a\t1\t-\t-\tA\n@@a\t1\t-\t-\tB\nnoise\n@@a\t1\t-\t-\tC\n@@a\t1\t-\t-\tD\n")
        = some r
      ∧ r.attempts.map (fun a => (a.buf, a.ok)) =
          cutAtFailure (fun n => n == 0) 0
            ((lines (ofString
                "#@a\t1\t-\t-\tA\n@@a\t1\t-\t-\tB\nnoise\n@@a\t1\t-\t-\tC\n@@a\t1\t-\t-\tD\n")).filter
              (fun l => decide (l.head? = some AT ∧ 10 < l.length)))
      ∧ ((∃ a ∈ r.attempts, a.ok = false) → r.cerr = true ∧ r.s = false)
      ∧ ((∀ a ∈ r.attempts, a.ok = true) → r.cerr = false ∧ r.s = true) :=
  replay_selection _ _ true (by decide)

/-- C4: for every cache content and all send outcomes, a replay pass ends, every
offset it marked holds the mark `#` afterwards, and a later pass over that file
(with whatever was appended to it since) ends too and passes to `sendto` only
buffers it read at an offset that holds `@`, whose first byte is `@`: no buffer
sent by the later pass starts at an offset marked by the earlier one, whether or
not the earlier pass was cut short by a send failure. -/
theorem mark_then_skip (store extra : CStr) (outs1 outs2 : Nat → Bool) (s1 s2 : Bool) :
    ∃ r1 r2, drainCache outs1 s1 store = some r1
      ∧ drainCache outs2 s2 (r1.data ++ extra) = some r2
      ∧ (∀ p ∈ r1.marks, (r1.data ++ extra)[p]? = some LMARK)
      ∧ (∀ a ∈ r2.attempts, (r1.data ++ extra)[a.off]? = some AT
            ∧ fgets BUFLEN (r1.data ++ extra) a.off = some a.buf
            ∧ a.buf.head? = some AT)
      ∧ (∀ p ∈ r1.marks, ∀ a ∈ r2.attempts, a.off ≠ p) := by
  obtain ⟨r1, hr1⟩ := drainCache_total outs1 s1 store
  obtain ⟨r2, hr2⟩ := drainCache_total outs2 s2 (r1.data ++ extra)
  have hmarks : ∀ p ∈ r1.marks, (r1.data ++ extra)[p]? = some LMARK := by
    intro p hp
    have h1 := drainLoop_marks outs1 _ s1 store 0 0 0 r1 (le_refl _) hr1 p hp
    have hlt : p < r1.data.length := by
      by_contra hge
      rw [List.getElem?_eq_none (by omega)] at h1
      exact absurd h1 (by simp)
    rw [List.getElem?_append_left hlt]
    exact h1
  have hoff := drainLoop_offsets outs2 _ s2 (r1.data ++ extra) 0 0 0 r2 hr2
  have hreads := drainLoop_reads outs2 _ s2 (r1.data ++ extra) 0 0 0 r2 (le_refl _) hr2
  refine ⟨r1, r2, hr1, hr2, hmarks, ?_, ?_⟩
  · intro a ha
    obtain ⟨_, h2, h3⟩ := hreads a ha
    refine ⟨hoff a ha, h2, ?_⟩
    cases hbuf : a.buf with
    | nil => simp [hbuf, validLine] at h3
    | cons c rest =>
      rw [hbuf] at h3
      simp [validLine_head c rest h3]
  · intro p hp a ha heq
    have h1 := hmarks p hp
    have h2 := hoff a ha
    rw [heq, h1] at h2
    exact absurd (Option.some.inj h2) (by decide)

/-- C1 fails on the code: the cache holds a line already marked and two lines not
yet sent; the first send succeeds and the second fails. The mark of the line
that was sent (offset 33) is written at offset 0, on the line that was skipped:
the file is unchanged and the delivered line still starts with `@`, so that the
next pass over the file sends it a second time. -/
theorem interrupted_drain_marks_skipped_line :
    drainCache (fun n => n == 0) true
        (ofString ("#@access.log\t1\t10.0.2.15\txhost\tA\n" ++
          "@@access.log\t1\t10.0.2.15\txhost\tB\n" ++ "@@access.log\t1\t10.0.2.15\txhost\tC\n"))
      = some
        { data := ofString ("#@access.log\t1\t10.0.2.15\txhost\tA\n" ++
            "@@access.log\t1\t10.0.2.15\txhost\tB\n" ++ "@@access.log\t1\t10.0.2.15\txhost\tC\n")
          cerr := true
          s := false
          attempts :=
            [⟨33, ofString "@@access.log\t1\t10.0.2.15\txhost\tB\n", true⟩,
             ⟨66, ofString "@@access.log\t1\t10.0.2.15\txhost\tC\n", false⟩]
          marks := [0] }
    ∧ (drainCache (fun _ => true) true
        (ofString ("#@access.log\t1\t10.0.2.15\txhost\tA\n" ++
          "@@access.log\t1\t10.0.2.15\txhost\tB\n" ++
          "@@access.log\t1\t10.0.2.15\txhost\tC\n"))).map (fun r => r.attempts)
      = some
          [⟨33, ofString "@@access.log\t1\t10.0.2.15\txhost\tB\n", true⟩,
           ⟨66, ofString "@@access.log\t1\t10.0.2.15\txhost\tC\n", true⟩] := by
  constructor <;> decide

/-- C9: for every cache content, socket state and send outcomes the replay block
ends; when no send of the pass fails (as when every send outcome is a success)
the cache file is removed and the socket is as before, and a second pass run
right after it, whatever its send outcomes would be, finds no file and leaves
the state as it is: nothing is sent, nothing is written, the socket is
unchanged. -/
theorem drain_idempotent (s : Bool) (store : CStr) (wire : List CStr) (drains : Nat)
    (outs : Nat → Bool) :
    ∃ r st1, drainCache outs s store = some r
      ∧ drain outs ⟨s, some store, wire, drains⟩ = some st1
      ∧ ((∀ i, outs i = true) → ∀ a ∈ r.attempts, a.ok = true)
      ∧ ((∀ a ∈ r.attempts, a.ok = true) →
          st1 = ⟨s, none, wire ++ r.attempts.map (fun a => a.buf), drains⟩
            ∧ ∀ outs2, drain outs2 st1 = some st1) := by
  obtain ⟨r, hr⟩ := drainCache_total outs s store
  have hd : drain outs ⟨s, some store, wire, drains⟩ =
      some ⟨r.s, if r.cerr then some r.data else none, wire ++ delivered r.attempts, drains⟩ := by
    simp only [drain, hr]
  refine ⟨r, _, hr, hd, ?_, ?_⟩
  · intro hall a ha
    obtain ⟨i, hi⟩ := drainLoop_ok outs _ s store 0 0 0 r hr a ha
    rw [hi]
    exact hall i
  · intro hall
    obtain ⟨hcerr, hs⟩ := (drainLoop_cerr outs _ s store 0 0 0 r hr).1 hall
    have hdel : delivered r.attempts = r.attempts.map (fun a => a.buf) := by
      simp only [delivered]
      rw [List.filter_eq_self.mpr hall]
    simp only [hcerr, hs, hdel]
    exact ⟨by simp, fun outs2 => rfl⟩

/-! ### The forwarding loop -/

theorem processRecord_unavailable (cfg : Config) (st : State) (rawbuf : CStr) (env : Env)
    (hun : unavailable st.s env = true) (happ : env.appendOk = true) :
    processRecord cfg st rawbuf env =
      some ⟨false, some (st.cache.getD [] ++ frame cfg rawbuf), st.wire, st.drains⟩ := by
  cases hs : st.s <;> cases hc : env.connectOk <;> cases ho : env.sendOk <;>
    simp [unavailable, hs, hc, ho] at hun <;>
    simp [processRecord, hs, hc, ho, appendlog, happ]

theorem run_unavailable (cfg : Config) (recs : List (CStr × Env)) (st0 : State)
    (hun : allUnavailable st0.s recs = true) (happ : ∀ p ∈ recs, p.2.appendOk = true)
    (hne : recs ≠ []) :
    run cfg st0 recs =
      some ⟨false, some (st0.cache.getD [] ++ (frames cfg recs).flatten), st0.wire, st0.drains⟩ := by
  induction recs generalizing st0 with
  | nil => exact absurd rfl hne
  | cons p rest ih =>
    obtain ⟨rawbuf, env⟩ := p
    simp only [allUnavailable, Bool.and_eq_true] at hun
    have hstep := processRecord_unavailable cfg st0 rawbuf env hun.1
      (happ (rawbuf, env) (List.mem_cons_self _ _))
    simp only [run, hstep]
    by_cases hrest : rest = []
    · subst hrest
      simp [run, frames]
    · rw [ih _ hun.2 (fun q hq => happ q (List.mem_cons_of_mem _ hq)) hrest]
      simp [frames, List.append_assoc]

theorem allUnavailable_take (s : Bool) (recs : List (CStr × Env)) (k : Nat)
    (hun : allUnavailable s recs = true) : allUnavailable s (recs.take k) = true := by
  induction recs generalizing s k with
  | nil => simpa using hun
  | cons p rest ih =>
    cases k with
    | zero => rfl
    | succ k =>
      obtain ⟨rawbuf, env⟩ := p
      simp only [allUnavailable, Bool.and_eq_true, List.take_succ_cons] at hun ⊢
      exact ⟨hun.1, ih false k hun.2⟩

/-- C3: for every state of the program (any cache content, or no cache file)
and every sequence of input lines for each of which the transport is
unavailable (the connection attempt fails or the send of the line fails) and the
append succeeds, after each line of the sequence (after its first `k` lines, for
every `k`) the cache file holds its initial content followed by the framed
messages of the lines read so far, each once and in arrival order; nothing has
been accepted by the remote end, no replay pass has been entered, and the socket
is closed as soon as one line has been processed. -/
theorem no_loss_on_disconnect (cfg : Config) (st0 : State) (recs : List (CStr × Env))
    (hun : allUnavailable st0.s recs = true) (happ : ∀ p ∈ recs, p.2.appendOk = true)
    (k : Nat) :
    run cfg st0 (recs.take k) =
      some
        { s := st0.s && (recs.take k).isEmpty
          cache :=
            if (recs.take k).isEmpty then st0.cache
            else some (st0.cache.getD [] ++ (frames cfg (recs.take k)).flatten)
          wire := st0.wire
          drains := st0.drains } := by
  by_cases hk : recs.take k = []
  · rw [hk]
    cases st0
    simp [run]
  · rw [run_unavailable cfg _ st0 (allUnavailable_take _ _ k hun)
      (fun p hp => happ p (List.mem_of_mem_take hp)) hk]
    simp [hk]

theorem no_loss_on_disconnect_witness :
    run ⟨ofString "access.log", 1, ofString "10.0.2.15", ofString "xhost"⟩
        ⟨true, some (ofString "#old\n"), [], 0⟩
        ([(ofString "GET /a HTTP/1.1 200\n", ⟨false, false, fun _ => true, true⟩),
          (ofString "GET /b HTTP/1.1 200\n", ⟨false, true, fun _ => true, true⟩)].take 2) =
      some
        { s := false
          cache := some (ofString ("#old\n" ++
            "@@access.log\t1\t10.0.2.15\txhost\tGET /a HTTP/1.1 200\n" ++
            "@@access.log\t1\t10.0.2.15\txhost\tGET /b HTTP/1.1 200\n"))
          wire := []
          drains := 0 } :=
  (no_loss_on_disconnect ⟨ofString "access.log", 1, ofString "10.0.2.15", ofString "xhost"⟩
    ⟨true, some (ofString "#old\n"), [], 0⟩
    [(ofString "GET /a HTTP/1.1 200\n", ⟨false, false, fun _ => true, true⟩),
     (ofString "GET /b HTTP/1.1 200\n", ⟨false, true, fun _ => true, true⟩)]
    (by decide) (by decide) 2).trans (by decide)

theorem run_append (cfg : Config) (recs1 recs2 : List (CStr × Env)) (st0 st1 : State)
    (h : run cfg st0 recs1 = some st1) : run cfg st0 (recs1 ++ recs2) = run cfg st1 recs2 := by
  induction recs1 generalizing st0 with
  | nil =>
    simp only [run] at h
    rw [Option.some.inj h]
    rfl
  | cons p rest ih =>
    obtain ⟨rawbuf, env⟩ := p
    simp only [run, List.cons_append] at h ⊢
    cases hp : processRecord cfg st0 rawbuf env with
    | none => simp [hp] at h
    | some st =>
      rw [hp] at h
      exact ih st h

theorem lines_append_line (body rest : CStr) (h : NL ∉ body) :
    lines (body ++ NL :: rest) = (body ++ [NL]) :: lines rest := by
  induction body with
  | nil => simp [lines]
  | cons c cs ih =>
    have hc : c ≠ NL := fun e => h (by simp [e])
    have hcs : NL ∉ cs := fun e => h (List.mem_cons_of_mem _ e)
    have e1 : lines (c :: (cs ++ NL :: rest)) = (c :: (cs ++ [NL])) :: lines rest := by
      conv_lhs => rw [lines]
      rw [if_neg hc, ih hcs]
    simpa using e1

theorem lines_flatten (fs : List CStr) (h : ∀ f ∈ fs, IsLine f) : lines fs.flatten = fs := by
  induction fs with
  | nil => rfl
  | cons f rest ih =>
    obtain ⟨body, hbody, hf⟩ := h f (List.mem_cons_self _ _)
    have hrest := ih (fun g hg => h g (List.mem_cons_of_mem _ hg))
    subst hf
    simp only [List.flatten_cons, List.append_assoc, List.singleton_append]
    rw [lines_append_line body _ hbody, hrest]

theorem cutAtFailure_all_ok (outs : Nat → Bool) (hall : ∀ i, outs i = true) (n : Nat)
    (ls : List CStr) : cutAtFailure outs n ls = ls.map (fun l => (l, true)) := by
  induction ls generalizing n with
  | nil => rfl
  | cons l rest ih => simp [cutAtFailure, hall n, ih (n + 1)]

theorem drainCache_all_lines (outs : Nat → Bool) (hall : ∀ i, outs i = true) (s : Bool)
    (fs : List CStr)
    (hfs : ∀ f ∈ fs, IsLine f ∧ validLine f = true ∧ f.length ≤ BUFLEN - 1) :
    ∃ r, drainCache outs s fs.flatten = some r ∧ r.cerr = false ∧ r.s = s ∧
      delivered r.attempts = fs := by
  obtain ⟨r, hr⟩ := drainCache_total outs s fs.flatten
  have hlines := lines_flatten fs (fun f hf => (hfs f hf).1)
  have hatt := drainLoop_attempts outs _ s fs.flatten 0 0 0 r (le_refl _)
    (by
      rw [List.drop_zero, hlines]
      exact fun l hl => (hfs l hl).2.2) hr
  rw [List.drop_zero, hlines, List.filter_eq_self.mpr (fun f hf => (hfs f hf).2.1),
    cutAtFailure_all_ok outs hall] at hatt
  have hok : ∀ a ∈ r.attempts, a.ok = true := by
    intro a ha
    have hmem : (a.buf, a.ok) ∈ fs.map (fun l => (l, true)) := by
      rw [← hatt]
      exact List.mem_map.mpr ⟨a, ha, rfl⟩
    obtain ⟨l, _, hl⟩ := List.mem_map.mp hmem
    exact (congrArg Prod.snd hl).symm
  have hbuf : r.attempts.map (fun a => a.buf) = fs := by
    have := congrArg (List.map Prod.fst) hatt
    simpa [List.map_map, Function.comp_def] using this
  obtain ⟨hcerr, hs⟩ := (drainLoop_cerr outs _ s fs.flatten 0 0 0 r hr).1 hok
  refine ⟨r, hr, hcerr, hs, ?_⟩
  simp only [delivered]
  rw [List.filter_eq_self.mpr hok, hbuf]

/-- C2: starting with no cache file, for every non-empty sequence of input lines
that are each cached because the transport is unavailable, whose framed
messages are newline-terminated lines of 11 to 65535 bytes, when for the next
line the connection attempt, the send of the line and every send of the replay
succeed, the program ends that step with the socket open and the cache file
removed, and the remote end has accepted, after what it had before, the frame of
the live line followed by the frames of the cached lines, each once, in arrival
order. -/
theorem outage_then_recovery (cfg : Config) (st0 : State) (recs : List (CStr × Env))
    (live : CStr) (env : Env)
    (h0 : st0.cache = none) (hne : recs ≠ [])
    (hun : allUnavailable st0.s recs = true) (happ : ∀ p ∈ recs, p.2.appendOk = true)
    (hfr : ∀ p ∈ recs, IsLine (frame cfg p.1) ∧ 11 ≤ (frame cfg p.1).length
      ∧ (frame cfg p.1).length ≤ 65535)
    (hconn : env.connectOk = true) (hsend : env.sendOk = true)
    (hreplay : ∀ i, env.replayOk i = true) :
    run cfg st0 (recs ++ [(live, env)]) =
      some
        { s := true
          cache := none
          wire := st0.wire ++ [frame cfg live] ++ frames cfg recs
          drains := st0.drains + 1 } := by
  have hrun := run_unavailable cfg recs st0 hun happ hne
  rw [run_append cfg recs _ st0 _ hrun, h0]
  have hfs : ∀ f ∈ frames cfg recs, IsLine f ∧ validLine f = true ∧ f.length ≤ BUFLEN - 1 := by
    intro f hf
    obtain ⟨p, hp, hpf⟩ := List.mem_map.mp hf
    obtain ⟨h1, h2, h3⟩ := hfr p hp
    subst hpf
    refine ⟨h1, ?_, h3⟩
    have hhead : (frame cfg p.1).head? = some AT := by
      rw [frame_eq]
      rfl
    rw [validLine_eq]
    exact decide_eq_true ⟨hhead, h2⟩
  obtain ⟨r, hr, hcerr, hs, hdel⟩ := drainCache_all_lines env.replayOk hreplay true _ hfs
  simp only [Option.getD_none, List.nil_append] at hr ⊢
  simp [run, processRecord, hconn, hsend, drain, hr, hcerr, hs, hdel]

theorem outage_then_recovery_witness :
    run ⟨ofString "access.log", 1, ofString "10.0.2.15", ofString "xhost"⟩ ⟨false, none, [], 0⟩
        ([(ofString "GET / HTTP/1.1 200\n", (⟨false, false, fun _ => false, true⟩ : Env))] ++
          [(ofString "GET /next HTTP/1.1 200\n", ⟨true, true, fun _ => true, true⟩)]) =
      some
        { s := true
          cache := none
          wire := [ofString "@@access.log\t1\t10.0.2.15\txhost\tGET /next HTTP/1.1 200\n",
            ofString "@@access.log\t1\t10.0.2.15\txhost\tGET / HTTP/1.1 200\n"]
          drains := 1 } :=
  (outage_then_recovery ⟨ofString "access.log", 1, ofString "10.0.2.15", ofString "xhost"⟩
    ⟨false, none, [], 0⟩
    [(ofString "GET / HTTP/1.1 200\n", ⟨false, false, fun _ => false, true⟩)]
    (ofString "GET /next HTTP/1.1 200\n") ⟨true, true, fun _ => true, true⟩
    rfl (by simp) (by decide) (by decide)
    (by
      intro p hp
      rw [List.mem_singleton] at hp
      subst hp
      exact ⟨⟨ofString "@@access.log\t1\t10.0.2.15\txhost\tGET / HTTP/1.1 200", by decide,
        by decide⟩, by decide, by decide⟩)
    rfl rfl (fun _ => rfl)).trans (by decide)

end TCPWebLog
